import Mathlib

/-!
# Verification of the checkpointed batch embedding-and-indexing pipeline

A shallow embedding of `src/vector_store.py` (class `VectorStore`): the text
normalizer `clean_text`, the checkpointed batch loop `add_documents`, the
retrieval function `search`, and the persistence layer `save`/`load`.

Machine floats are modelled as rationals; the embedding backend
(`self.model.encode`) is an explicit function parameter, fallible
(`String → Option (List ℚ)`) where the source catches per-item failures and
total (`String → List ℚ`) where a failure would propagate.  The checkpoint
directory is modelled as an explicit file-system value, and the writes the
batch loop performs are recorded as an event trace.
-/

namespace RagVS

/-! ## Text normalizer: `VectorStore.clean_text` (vector_store.py lines 66-90) -/

/-- ASCII control characters matched by the source regex `[\x01-\x1F\x7F]`. -/
def isPyCtl (c : Char) : Bool :=
  (0x01 ≤ c.toNat && c.toNat ≤ 0x1F) || c.toNat == 0x7F

/-- The whitespace set of Python's `\s` regex class and `str.strip` for
`str` patterns (Unicode whitespace). -/
def isPySpace (c : Char) : Bool :=
  c.toNat == 0x09 || c.toNat == 0x0A || c.toNat == 0x0B || c.toNat == 0x0C ||
  c.toNat == 0x0D || c.toNat == 0x1C || c.toNat == 0x1D || c.toNat == 0x1E ||
  c.toNat == 0x1F || c.toNat == 0x20 || c.toNat == 0x85 || c.toNat == 0xA0 ||
  c.toNat == 0x1680 || (0x2000 ≤ c.toNat && c.toNat ≤ 0x200A) ||
  c.toNat == 0x2028 || c.toNat == 0x2029 || c.toNat == 0x202F ||
  c.toNat == 0x205F || c.toNat == 0x3000

/-- `text.replace('\x00', ' ')` (line 80). -/
def replaceNul (l : List Char) : List Char :=
  l.map fun c => if c = '\x00' then ' ' else c

/-- `re.sub(r'[\x01-\x1F\x7F]', ' ', text)` (line 81). -/
def replaceCtl (l : List Char) : List Char :=
  l.map fun c => if isPyCtl c then ' ' else c

/-- `re.sub(r'\s+', ' ', text)` (line 84): every maximal run of whitespace
becomes one `' '`.  The flag records whether the previous character was
inside a whitespace run. -/
def collapseAux : Bool → List Char → List Char
  | _, [] => []
  | prevSpace, c :: rest =>
    if isPySpace c then
      if prevSpace then collapseAux true rest
      else ' ' :: collapseAux true rest
    else c :: collapseAux false rest

def collapseWS (l : List Char) : List Char := collapseAux false l

/-- `if len(text) > 10000: text = text[:10000]` (lines 87-88). -/
def truncateText (l : List Char) : List Char :=
  if 10000 < l.length then l.take 10000 else l

/-- Python `str.strip()` (line 90): drop leading and trailing whitespace. -/
def pyStrip (l : List Char) : List Char :=
  ((l.dropWhile isPySpace).reverse.dropWhile isPySpace).reverse

def cleanTextL (l : List Char) : List Char :=
  pyStrip (truncateText (collapseWS (replaceCtl (replaceNul l))))

/-- `VectorStore.clean_text` on string input (the non-string branch of the
source returns `""` and is not modelled: claims quantify over strings). -/
def cleanText (s : String) : String :=
  String.mk (cleanTextL s.data)

/-! ## Data model -/

/-- A document chunk dictionary: `{content, metadata:{path, category,
filename, chunk_id}}` (see document_processor.py). -/
structure Doc where
  content : String
  path : String
  category : String
  filename : String
  chunk_id : Nat
deriving DecidableEq

/-- The two fields of a checkpoint artifact `checkpoint_<i>.pkl`
(lines 219-222). -/
structure CkptData where
  documents : List Doc
  embeddings : List (List ℚ)
deriving DecidableEq

/-- State of one file in the checkpoint directory: absent, present but
failing to parse (`json.load` / `pickle.load` raises), or parsed. -/
inductive FileState (α : Type) where
  | absent : FileState α
  | corrupt : FileState α
  | ok : α → FileState α
deriving DecidableEq

/-- The checkpoint directory: `checkpoint_info.json` (holding `next_batch`)
and the `checkpoint_<i>.pkl` artifacts.  The artifact key is an integer
because the source looks up `checkpoint_{start_batch-1}.pkl`, which is
`checkpoint_-1.pkl` when `next_batch` is `0`. -/
structure FS where
  info : FileState Nat
  arts : Int → FileState CkptData

/-- A checkpoint directory with no checkpoint files. -/
def fsFresh : FS := ⟨.absent, fun _ => .absent⟩

/-- A write event performed by the batch loop of `add_documents`:
`artifact i data` is the dump of `checkpoint_<i>.pkl` (lines 217-222),
`info n` is the dump of `checkpoint_info.json` with `next_batch = n`
(lines 168-170 and 224-226). -/
inductive WEvent where
  | artifact : Nat → CkptData → WEvent
  | info : Nat → WEvent
deriving DecidableEq

/-! ## Checkpoint recovery (vector_store.py lines 104-134) -/

/-- The checkpoint-recovery prologue of `add_documents`: returns
`(start_batch, documents, embeddings)`.  A corrupt info record or a corrupt
artifact raises inside the `try` and is caught by the bare `except`
(lines 127-131); a missing artifact takes the explicit `else` branch
(lines 122-126). -/
def loadStart (fs : FS) : Nat × List Doc × List (List ℚ) :=
  match fs.info with
  | .absent => (0, [], [])
  | .corrupt => (0, [], [])
  | .ok startBatch =>
    match fs.arts ((startBatch : Int) - 1) with
    | .absent => (0, [], [])
    | .corrupt => (0, [], [])
    | .ok d => (startBatch, d.documents, d.embeddings)

/-! ## Batch embedding (vector_store.py lines 142-231) -/

/-- Lines 156-163: `for i, doc in enumerate(batch_docs)` collecting
`batch_texts` and `batch_indices` of the documents whose cleaned content is
non-empty.  `i` is the running `enumerate` counter. -/
def cleanBatchAux (batchDocs : List Doc) (i : Nat) : List String × List Nat :=
  match batchDocs with
  | [] => ([], [])
  | d :: rest =>
    let r := cleanBatchAux rest (i + 1)
    let t := cleanText d.content
    if t = "" then r else (t :: r.1, i :: r.2)

def cleanBatch (batchDocs : List Doc) : List String × List Nat :=
  cleanBatchAux batchDocs 0

/-- Lines 188-208: the per-item embedding loop over the prepared
`(text, index)` pairs.  `encode` is `self.model.encode`; a `none` result
models the exception caught at lines 204-205, which skips the item.  An
out-of-range index would raise `IndexError` at `batch_docs[idx]`, also
caught per item. -/
def embedBatch (encode : String → Option (List ℚ)) (batchDocs : List Doc)
    (texts : List String) (indices : List Nat) : List (Doc × List ℚ) :=
  (texts.zip indices).filterMap fun ti =>
    match batchDocs[ti.2]? with
    | some d => (encode ti.1).map fun v => (d, v)
    | none => none

/-- The loop `for batch_idx in range(start_batch, total_batches)`
(lines 142-231), with `fuel = total_batches - batch_idx` remaining
iterations.  Returns the final accumulators and the trace of checkpoint
writes.  The branch at lines 165-172 (no valid texts) writes only the
checkpoint-info record and continues; the normal path extends the
accumulators (lines 211-212), dumps `checkpoint_<batch_idx>.pkl`
(lines 217-222) and then the info record (lines 224-226). -/
def runBatches (encode : String → Option (List ℚ)) (docs : List Doc) :
    Nat → Nat → List Doc → List (List ℚ) →
    List Doc × List (List ℚ) × List WEvent
  | _, 0, accD, accE => (accD, accE, [])
  | batchIdx, fuel + 1, accD, accE =>
    let batchDocs := (docs.drop (8 * batchIdx)).take 8
    let ti := cleanBatch batchDocs
    if ti.1.isEmpty then
      let r := runBatches encode docs (batchIdx + 1) fuel accD accE
      (r.1, r.2.1, WEvent.info (batchIdx + 1) :: r.2.2)
    else
      let succ := embedBatch encode batchDocs ti.1 ti.2
      let accD' := accD ++ succ.map Prod.fst
      let accE' := accE ++ succ.map Prod.snd
      let r := runBatches encode docs (batchIdx + 1) fuel accD' accE'
      (r.1, r.2.1,
        WEvent.artifact batchIdx ⟨accD', accE'⟩ ::
          WEvent.info (batchIdx + 1) :: r.2.2)

/-- The flat L2 index the source builds with `faiss.IndexFlatL2`
(lines 236-239): its state is the stacked embedding matrix. -/
structure IndexFlatL2 where
  vecs : List (List ℚ)
deriving DecidableEq

/-- Result of a whole `add_documents` run: the final `self.documents`, the
built `self.index` (built only `if self.embeddings:`, lines 234-239), and
the trace of checkpoint writes. -/
structure RunResult where
  documents : List Doc
  index : Option IndexFlatL2
  trace : List WEvent
deriving DecidableEq

/-- `VectorStore.add_documents` (lines 92-261): checkpoint recovery, the
batch loop, and the final index construction. -/
def add_documents (encode : String → Option (List ℚ)) (fs : FS)
    (documents : List Doc) : RunResult :=
  let s := loadStart fs
  let totalBatches := (documents.length + 8 - 1) / 8
  let r := runBatches encode documents s.1 (totalBatches - s.1) s.2.1 s.2.2
  { documents := r.1
    index := if r.2.1.isEmpty then none else some ⟨r.2.1⟩
    trace := r.2.2 }

/-! ## Retrieval: `VectorStore.search` (vector_store.py lines 263-291) -/

/-- Squared Euclidean distance, the metric of `faiss.IndexFlatL2`. -/
def sqL2 (u v : List ℚ) : ℚ :=
  (List.zipWith (fun a b => (a - b) * (a - b)) u v).sum

/-- The `(label, distance)` pairs of every stored vector against a query,
labels counting up from `i`. -/
def distPairs (q : List ℚ) : List (List ℚ) → Int → List (Int × ℚ)
  | [], _ => []
  | v :: rest, i => (i, sqL2 q v) :: distPairs q rest (i + 1)

/-- Comparison by distance, used to model the index returning neighbors in
ascending distance order. -/
def distLE (a b : Int × ℚ) : Prop := a.2 ≤ b.2

instance : DecidableRel distLE := fun a b =>
  inferInstanceAs (Decidable (a.2 ≤ b.2))

instance : IsTotal (Int × ℚ) distLE := ⟨fun a b => le_total a.2 b.2⟩

instance : IsTrans (Int × ℚ) distLE := ⟨fun _ _ _ h h' => le_trans h h'⟩

/-- The padding entry faiss emits when `k` exceeds the number of stored
vectors: label `-1`, distance `FLT_MAX`. -/
def faissPad : Int × ℚ := (-1, (34028234663852886 : ℚ) * 10 ^ 22)

/-- `self.index.search(query_embedding, k)` on a flat L2 index: the `k`
nearest stored vectors in ascending distance order, padded with
`faissPad` entries when fewer than `k` vectors are stored. -/
def indexSearch (idx : IndexFlatL2) (q : List ℚ) (k : Nat) :
    List (Int × ℚ) :=
  let sorted := List.insertionSort distLE (distPairs q idx.vecs 0)
  let top := sorted.take k
  top ++ List.replicate (k - top.length) faissPad

/-- The persistent state of a `VectorStore` used by `search`/`save`/`load`:
`self.documents` and `self.index` (`None` until built or loaded). -/
structure VectorStoreSt where
  documents : List Doc
  index : Option IndexFlatL2
deriving DecidableEq

/-- The loop body of `search` (lines 285-289): keep a hit only when
`idx < len(self.documents) and idx >= 0`, and attach the score
`1 / (1 + distance)` to a copy of the matched document. -/
def hitToResult (docs : List Doc) (h : Int × ℚ) : Option (Doc × ℚ) :=
  if hd : 0 ≤ h.1 ∧ h.1.toNat < docs.length then
    some (docs.get ⟨h.1.toNat, hd.2⟩, 1 / (1 + h.2))
  else none

/-- `VectorStore.search` (lines 263-291).  `enc` is `self.model.encode` for
the query (an exception there would propagate, so it is total here).  Raises
`ValueError` when `self.index` is `None` (lines 274-275); otherwise filters
out-of-range labels (line 286) and attaches the score `1/(1+d)` to a copy of
the matched document (lines 287-288). -/
def search (enc : String → List ℚ) (s : VectorStoreSt) (q : String)
    (k : Nat) : Except String (List (Doc × ℚ)) :=
  match s.index with
  | none => .error "Vector store is empty. Add documents first."
  | some idx =>
    let hits := indexSearch idx (enc q) k
    .ok (hits.filterMap (hitToResult s.documents))

/-! ## Persistence: `VectorStore.save` / `VectorStore.load`
(vector_store.py lines 293-326) -/

/-- `faiss.serialize_index` (line 305): a lossless serialization,
modelled as the index contents. -/
def serialize_index (i : IndexFlatL2) : List (List ℚ) := i.vecs

/-- `faiss.deserialize_index` (line 322). -/
def deserialize_index (v : List (List ℚ)) : IndexFlatL2 := ⟨v⟩

/-- The pickled artifact `{'documents': ..., 'index': serialized or None}`
(lines 302-306). -/
structure SavedArtifact where
  documents : List Doc
  index : Option (List (List ℚ))
deriving DecidableEq

/-- `VectorStore.save` (lines 293-308): `'index'` is
`faiss.serialize_index(self.index) if self.index else None`. -/
def save (s : VectorStoreSt) : SavedArtifact :=
  ⟨s.documents, s.index.map serialize_index⟩

/-- `VectorStore.load` (lines 310-326): deserializes the index when the
field is present and not `None`. -/
def load (a : SavedArtifact) : VectorStoreSt :=
  ⟨a.documents, a.index.map deserialize_index⟩

/-! ## Normal form of cleaned text -/

/-- The first character, if any, is not whitespace. -/
def headNotSpace : List Char → Prop
  | [] => True
  | c :: _ => isPySpace c = false

/-- No two adjacent whitespace characters. -/
def noTwoSpaces : List Char → Prop
  | [] => True
  | [_] => True
  | a :: b :: rest =>
    ¬(isPySpace a = true ∧ isPySpace b = true) ∧ noTwoSpaces (b :: rest)

/-! ## Derived notions used by the statements -/

/-- The per-item success policy of the batch embedder: a document
contributes the pair `(doc, embedding)` exactly when its cleaned content is
non-empty and the embedding backend succeeds on it. -/
def succPairs (encode : String → Option (List ℚ)) (l : List Doc) :
    List (Doc × List ℚ) :=
  l.filterMap fun d =>
    let t := cleanText d.content
    if t = "" then none else (encode t).map fun v => (d, v)

/-- The pairing invariant of the accumulator: as many embeddings as
documents, and the `j`-th embedding is the backend's output on the `j`-th
document's cleaned content. -/
def Paired (encode : String → Option (List ℚ)) (ds : List Doc)
    (es : List (List ℚ)) : Prop :=
  es.length = ds.length ∧
  ∀ j (hj : j < ds.length) (hj' : j < es.length),
    encode (cleanText (ds.get ⟨j, hj⟩).content) = some (es.get ⟨j, hj'⟩)

/-- The Boolean form of the per-item success predicate. -/
def keeps (encode : String → Option (List ℚ)) (d : Doc) : Bool :=
  (cleanText d.content != "") && (encode (cleanText d.content)).isSome

/-! ## Concrete data for witnesses -/

def encW : String → List ℚ := fun _ => [0]

def docA : Doc := ⟨"aaa", "p", "c", "f", 0⟩

def docB : Doc := ⟨"hi", "p", "c", "f", 1⟩

def idxW : IndexFlatL2 := ⟨[[0], [3]]⟩

def storeW : VectorStoreSt := ⟨[docA, docB], some idxW⟩

/-- A document whose content cleans to the empty string. -/
def docEmpty : Doc := ⟨"", "p", "c", "f", 2⟩

/-- A concrete embedding backend that succeeds on every text. -/
def encOkW : String → Option (List ℚ) := fun _ => some [1]

/-- A checkpoint directory claiming `next_batch = 2` whose artifact for
batch `1` is missing. -/
def fsMissingArt : FS := ⟨.ok 2, fun _ => .absent⟩

theorem noTwoSpaces_tail {c : Char} {l : List Char}
    (h : noTwoSpaces (c :: l)) : noTwoSpaces l := by
  cases l with
  | nil => trivial
  | cons x xs => exact h.2

theorem noTwoSpaces_cons_of {c : Char} {l : List Char}
    (h1 : noTwoSpaces l) (h2 : isPySpace c = false ∨ headNotSpace l) :
    noTwoSpaces (c :: l) := by
  cases l with
  | nil => trivial
  | cons x xs =>
    refine ⟨?_, h1⟩
    rintro ⟨hc, hx⟩
    rcases h2 with h | h
    · rw [h] at hc; cases hc
    · rw [show headNotSpace (x :: xs) = (isPySpace x = false) from rfl] at h
      rw [h] at hx; cases hx

theorem headNotSpace_of_head_false {c : Char} {l : List Char}
    (h : isPySpace c = false) : headNotSpace (c :: l) := h

theorem noTwoSpaces_head_of_space {c : Char} {l : List Char}
    (h : noTwoSpaces (c :: l)) (hc : isPySpace c = true) : headNotSpace l := by
  cases l with
  | nil => trivial
  | cons x xs =>
    by_cases hx : isPySpace x = true
    · exact absurd ⟨hc, hx⟩ h.1
    · exact eq_false_of_ne_true hx

/-! ### Properties of whitespace collapsing -/

theorem collapseAux_cons_sp_t {a : Char} {l : List Char}
    (h : isPySpace a = true) :
    collapseAux true (a :: l) = collapseAux true l := by
  simp [collapseAux, h]

theorem collapseAux_cons_sp_f {a : Char} {l : List Char}
    (h : isPySpace a = true) :
    collapseAux false (a :: l) = ' ' :: collapseAux true l := by
  simp [collapseAux, h]

theorem collapseAux_cons_ns {a : Char} {l : List Char} {b : Bool}
    (h : isPySpace a = false) :
    collapseAux b (a :: l) = a :: collapseAux false l := by
  simp [collapseAux, h]

theorem mem_collapseAux {c : Char} :
    ∀ (l : List Char) (b : Bool), c ∈ collapseAux b l → c = ' ' ∨ c ∈ l := by
  intro l
  induction l with
  | nil => intro b h; cases h
  | cons a rest ih =>
    intro b h
    rcases (Bool.eq_false_or_eq_true (isPySpace a)).symm with ha | ha
    · rw [collapseAux_cons_ns ha] at h
      rcases List.mem_cons.mp h with h' | h'
      · exact Or.inr (h' ▸ List.mem_cons_self a rest)
      · rcases ih false h' with h'' | h''
        · exact Or.inl h''
        · exact Or.inr (List.mem_cons_of_mem a h'')
    · cases b with
      | true =>
        rw [collapseAux_cons_sp_t ha] at h
        rcases ih true h with h' | h'
        · exact Or.inl h'
        · exact Or.inr (List.mem_cons_of_mem a h')
      | false =>
        rw [collapseAux_cons_sp_f ha] at h
        rcases List.mem_cons.mp h with h' | h'
        · exact Or.inl h'
        · rcases ih true h' with h'' | h''
          · exact Or.inl h''
          · exact Or.inr (List.mem_cons_of_mem a h'')

theorem collapseAux_spaces {c : Char} :
    ∀ (l : List Char) (b : Bool),
      c ∈ collapseAux b l → isPySpace c = true → c = ' ' := by
  intro l
  induction l with
  | nil => intro b h; cases h
  | cons a rest ih =>
    intro b h hc
    rcases (Bool.eq_false_or_eq_true (isPySpace a)).symm with ha | ha
    · rw [collapseAux_cons_ns ha] at h
      rcases List.mem_cons.mp h with h' | h'
      · rw [h'] at hc; rw [hc] at ha; cases ha
      · exact ih false h' hc
    · cases b with
      | true =>
        rw [collapseAux_cons_sp_t ha] at h
        exact ih true h hc
      | false =>
        rw [collapseAux_cons_sp_f ha] at h
        rcases List.mem_cons.mp h with h' | h'
        · exact h'
        · exact ih true h' hc

theorem collapseAux_head_true :
    ∀ l : List Char, headNotSpace (collapseAux true l) := by
  intro l
  induction l with
  | nil => trivial
  | cons a rest ih =>
    rcases (Bool.eq_false_or_eq_true (isPySpace a)).symm with ha | ha
    · rw [collapseAux_cons_ns ha]
      exact headNotSpace_of_head_false ha
    · rw [collapseAux_cons_sp_t ha]
      exact ih

theorem collapseAux_noTwo :
    ∀ (l : List Char) (b : Bool), noTwoSpaces (collapseAux b l) := by
  intro l
  induction l with
  | nil => intro b; trivial
  | cons a rest ih =>
    intro b
    rcases (Bool.eq_false_or_eq_true (isPySpace a)).symm with ha | ha
    · rw [collapseAux_cons_ns ha]
      exact noTwoSpaces_cons_of (ih false) (Or.inl ha)
    · cases b with
      | true =>
        rw [collapseAux_cons_sp_t ha]
        exact ih true
      | false =>
        rw [collapseAux_cons_sp_f ha]
        exact noTwoSpaces_cons_of (ih true) (Or.inr (collapseAux_head_true rest))

theorem collapseAux_eq_self :
    ∀ (l : List Char) (b : Bool),
      (∀ c ∈ l, isPySpace c = true → c = ' ') → noTwoSpaces l →
      (b = true → headNotSpace l) → collapseAux b l = l := by
  intro l
  induction l with
  | nil => intro b _ _ _; rfl
  | cons a rest ih =>
    intro b hsp hnt hb
    rcases (Bool.eq_false_or_eq_true (isPySpace a)).symm with ha | ha
    · rw [collapseAux_cons_ns ha]
      congr 1
      exact ih false (fun c hc => hsp c (List.mem_cons_of_mem a hc))
        (noTwoSpaces_tail hnt) (fun h => by cases h)
    · cases b with
      | true =>
        have htop := hb rfl
        rw [show headNotSpace (a :: rest) = (isPySpace a = false) from rfl]
          at htop
        rw [ha] at htop; cases htop
      | false =>
        rw [collapseAux_cons_sp_f ha]
        have ha' : a = ' ' := hsp a (List.mem_cons_self a rest) ha
        rw [← ha']
        congr 1
        exact ih true (fun c hc => hsp c (List.mem_cons_of_mem a hc))
          (noTwoSpaces_tail hnt)
          (fun _ => noTwoSpaces_head_of_space hnt ha)

/-! ### Properties of stripping and truncation -/

theorem dropWhile_headNotSpace :
    ∀ l : List Char, headNotSpace (l.dropWhile isPySpace) := by
  intro l
  induction l with
  | nil => trivial
  | cons a rest ih =>
    rcases (Bool.eq_false_or_eq_true (isPySpace a)).symm with ha | ha
    · rw [List.dropWhile_cons, if_neg (by simp [ha])]
      exact headNotSpace_of_head_false ha
    · rw [List.dropWhile_cons, if_pos ha]
      exact ih

theorem exists_dropWhile_append (l : List Char) :
    ∃ t, l = t ++ l.dropWhile isPySpace := by
  induction l with
  | nil => exact ⟨[], rfl⟩
  | cons a rest ih =>
    rcases (Bool.eq_false_or_eq_true (isPySpace a)).symm with ha | ha
    · exact ⟨[], by rw [List.dropWhile_cons, if_neg (by simp [ha])]; rfl⟩
    · obtain ⟨t, ht⟩ := ih
      refine ⟨a :: t, ?_⟩
      rw [List.dropWhile_cons, if_pos ha, List.cons_append, ← ht]

theorem dropWhile_eq_self_of_headNotSpace {l : List Char}
    (h : headNotSpace l) : l.dropWhile isPySpace = l := by
  cases l with
  | nil => rfl
  | cons a rest =>
    have h' : isPySpace a = false := h
    rw [List.dropWhile_cons, if_neg (by simp [h'])]

theorem headNotSpace_append_left {x y : List Char}
    (h : headNotSpace (x ++ y)) : headNotSpace x := by
  cases x with
  | nil => trivial
  | cons c x' => exact h

theorem noTwoSpaces_append_right :
    ∀ (t l : List Char), noTwoSpaces (t ++ l) → noTwoSpaces l := by
  intro t
  induction t with
  | nil => intro l h; exact h
  | cons a t' ih =>
    intro l h
    rw [List.cons_append] at h
    exact ih l (noTwoSpaces_tail h)

theorem noTwoSpaces_append_left :
    ∀ (l t : List Char), noTwoSpaces (l ++ t) → noTwoSpaces l := by
  intro l
  induction l with
  | nil => intro t _; trivial
  | cons a l' ih =>
    intro t h
    rw [List.cons_append] at h
    cases l' with
    | nil => trivial
    | cons x xs =>
      rw [List.cons_append] at h
      exact ⟨h.1, ih t h.2⟩

theorem exists_pyStrip_decomp (l : List Char) :
    ∃ t u, l = t ++ (pyStrip l ++ u) ∧
      l.dropWhile isPySpace = pyStrip l ++ u := by
  obtain ⟨t, ht⟩ := exists_dropWhile_append l
  obtain ⟨s, hs⟩ := exists_dropWhile_append (l.dropWhile isPySpace).reverse
  have hrev := congrArg List.reverse hs
  rw [List.reverse_reverse, List.reverse_append] at hrev
  have h2 : l.dropWhile isPySpace = pyStrip l ++ s.reverse := hrev
  exact ⟨t, s.reverse, by rw [← h2, ← ht], h2⟩

theorem pyStrip_headNotSpace (l : List Char) : headNotSpace (pyStrip l) := by
  obtain ⟨t, u, _, h2⟩ := exists_pyStrip_decomp l
  have h := dropWhile_headNotSpace l
  rw [h2] at h
  exact headNotSpace_append_left h

theorem pyStrip_reverse_headNotSpace (l : List Char) :
    headNotSpace (pyStrip l).reverse := by
  unfold pyStrip
  rw [List.reverse_reverse]
  exact dropWhile_headNotSpace _

theorem pyStrip_eq_self {l : List Char} (h1 : headNotSpace l)
    (h2 : headNotSpace l.reverse) : pyStrip l = l := by
  unfold pyStrip
  rw [dropWhile_eq_self_of_headNotSpace h1,
    dropWhile_eq_self_of_headNotSpace h2, List.reverse_reverse]

theorem pyStrip_subset {l : List Char} {c : Char} (hc : c ∈ pyStrip l) :
    c ∈ l := by
  obtain ⟨t, u, h1, _⟩ := exists_pyStrip_decomp l
  rw [h1]
  exact List.mem_append.mpr (Or.inr (List.mem_append.mpr (Or.inl hc)))

theorem pyStrip_length_le (l : List Char) :
    (pyStrip l).length ≤ l.length := by
  obtain ⟨t, u, h1, _⟩ := exists_pyStrip_decomp l
  have := congrArg List.length h1
  rw [List.length_append, List.length_append] at this
  omega

theorem noTwoSpaces_pyStrip {l : List Char} (h : noTwoSpaces l) :
    noTwoSpaces (pyStrip l) := by
  obtain ⟨t, u, h1, _⟩ := exists_pyStrip_decomp l
  rw [h1] at h
  exact noTwoSpaces_append_left _ _ (noTwoSpaces_append_right t _ h)

theorem truncateText_subset {l : List Char} {c : Char}
    (hc : c ∈ truncateText l) : c ∈ l := by
  unfold truncateText at hc
  split at hc
  · exact List.take_subset _ _ hc
  · exact hc

theorem truncateText_length (l : List Char) :
    (truncateText l).length ≤ 10000 := by
  unfold truncateText
  split
  · rw [List.length_take]; omega
  · omega

theorem truncateText_eq_self {l : List Char} (h : l.length ≤ 10000) :
    truncateText l = l := by
  unfold truncateText
  rw [if_neg (by omega)]

theorem noTwoSpaces_truncateText {l : List Char} (h : noTwoSpaces l) :
    noTwoSpaces (truncateText l) := by
  unfold truncateText
  split
  · rw [← List.take_append_drop 10000 l] at h
    exact noTwoSpaces_append_left _ _ h
  · exact h

/-! ### Characters surviving the replacement passes -/

theorem mem_replace_facts {l : List Char} {c : Char}
    (hc : c ∈ replaceCtl (replaceNul l)) :
    c ≠ '\x00' ∧ isPyCtl c = false := by
  unfold replaceCtl at hc
  obtain ⟨b, hb, hbc⟩ := List.mem_map.mp hc
  unfold replaceNul at hb
  obtain ⟨a, _, hab⟩ := List.mem_map.mp hb
  by_cases h1 : isPyCtl b = true
  · rw [if_pos h1] at hbc
    rw [← hbc]
    exact ⟨by decide, by decide⟩
  · rw [if_neg h1] at hbc
    subst hbc
    refine ⟨?_, eq_false_of_ne_true h1⟩
    by_cases h2 : a = '\x00'
    · rw [if_pos h2] at hab
      rw [← hab]
      decide
    · rw [if_neg h2] at hab
      rw [← hab]
      exact h2

theorem map_id_of_mem {α : Type _} {f : α → α} :
    ∀ l : List α, (∀ c ∈ l, f c = c) → l.map f = l := by
  intro l
  induction l with
  | nil => intro _; rfl
  | cons a t ih =>
    intro h
    rw [List.map_cons, h a (List.mem_cons_self a t),
      ih (fun c hc => h c (List.mem_cons_of_mem a hc))]

/-! ### Normal-form facts about the output of the normalizer -/

theorem cleanTextL_facts (l : List Char) :
    (∀ c ∈ cleanTextL l, c ≠ '\x00' ∧ isPyCtl c = false ∧
      (isPySpace c = true → c = ' ')) ∧
    noTwoSpaces (cleanTextL l) ∧
    headNotSpace (cleanTextL l) ∧
    headNotSpace (cleanTextL l).reverse ∧
    (cleanTextL l).length ≤ 10000 := by
  refine ⟨?_, ?_, ?_, ?_, ?_⟩
  · intro c hc
    have hct : c ∈ truncateText (collapseWS (replaceCtl (replaceNul l))) :=
      pyStrip_subset hc
    have hcw : c ∈ collapseWS (replaceCtl (replaceNul l)) :=
      truncateText_subset hct
    have hsp : isPySpace c = true → c = ' ' :=
      collapseAux_spaces _ false hcw
    rcases mem_collapseAux _ false hcw with h' | h'
    · subst h'
      exact ⟨by decide, by decide, fun _ => rfl⟩
    · have hf := mem_replace_facts h'
      exact ⟨hf.1, hf.2, hsp⟩
  · exact noTwoSpaces_pyStrip (noTwoSpaces_truncateText (collapseAux_noTwo _ false))
  · exact pyStrip_headNotSpace _
  · exact pyStrip_reverse_headNotSpace _
  · exact le_trans (pyStrip_length_le _) (truncateText_length _)

/-! ## Theorems -/

theorem cleanTextL_idem (l : List Char) :
    cleanTextL (cleanTextL l) = cleanTextL l := by
  obtain ⟨hmem, hnt, hh, hr, hlen⟩ := cleanTextL_facts l
  have h1 : replaceNul (cleanTextL l) = cleanTextL l :=
    map_id_of_mem _ (fun c hc => if_neg ((hmem c hc).1))
  have h2 : replaceCtl (cleanTextL l) = cleanTextL l :=
    map_id_of_mem _ (fun c hc => if_neg (by simp [(hmem c hc).2.1]))
  have h3 : collapseWS (cleanTextL l) = cleanTextL l :=
    collapseAux_eq_self _ false (fun c hc => (hmem c hc).2.2) hnt
      (fun h => by cases h)
  have h4 : truncateText (cleanTextL l) = cleanTextL l :=
    truncateText_eq_self hlen
  have h5 : pyStrip (cleanTextL l) = cleanTextL l :=
    pyStrip_eq_self hh hr
  show pyStrip (truncateText (collapseWS (replaceCtl (replaceNul
    (cleanTextL l))))) = cleanTextL l
  rw [h1, h2, h3, h4, h5]

/-- C8: the text normalizer `clean_text` is idempotent. -/
theorem clean_text_idempotent (s : String) :
    cleanText (cleanText s) = cleanText s :=
  congrArg String.mk (cleanTextL_idem s.data)

/-- C9 (amended): every character of `clean_text`'s output is neither NUL
nor an ASCII control character (`0x01`-`0x1F`, `0x7F`), every whitespace
code point in the output (including `0x85` and the other Unicode whitespace
controls) has been collapsed to a plain space, and the output length is at
most 10000.  C1 control characters other than `0x85` (`0x80`-`0x9F`) are
not removed by the source and may remain. -/
theorem clean_text_output_clean (s : String) :
    (∀ c ∈ (cleanText s).data, c ≠ '\x00' ∧ isPyCtl c = false ∧
      (isPySpace c = true → c = ' ')) ∧
    (cleanText s).data.length ≤ 10000 := by
  obtain ⟨hmem, _, _, _, hlen⟩ := cleanTextL_facts s.data
  exact ⟨hmem, hlen⟩

/-- Witness for `clean_text_output_clean` on a concrete input. -/
theorem clean_text_output_clean_witness :
    ('a' ∈ (cleanText "a\x00b").data) ∧
    ('a' ≠ '\x00' ∧ isPyCtl 'a' = false ∧
      (isPySpace 'a' = true → 'a' = ' ')) ∧
    (cleanText "a\x00b").data.length ≤ 10000 :=
  ⟨by decide, (clean_text_output_clean "a\x00b").1 'a' (by decide),
    (clean_text_output_clean "a\x00b").2⟩

/-- C9 counterexample: `U+009C` is a Unicode control character (category
`Cc`, in the C1 control range `0x7F`-`0x9F`) and is not whitespace, yet
`clean_text` returns it unchanged: the output is not free of control
characters. -/
theorem clean_text_keeps_c1_control :
    cleanText "\x9c" = "\x9c" ∧
    '\x9c' ∈ (cleanText "\x9c").data ∧
    (0x7F ≤ '\x9c'.toNat ∧ '\x9c'.toNat ≤ 0x9F) ∧
    isPySpace '\x9c' = false := by
  refine ⟨by decide, by decide, by decide, by decide⟩

/-- C4: for every store, `load (save store)` reproduces the documents
exactly, preserves presence/absence of the index, and the loaded store
returns identical search results (same matched documents, same distances
hence same scores) for every query. -/
theorem save_load_roundtrip (s : VectorStoreSt) :
    load (save s) = s ∧
    (load (save s)).documents = s.documents ∧
    ((load (save s)).index = none ↔ s.index = none) ∧
    (∀ enc q k, search enc (load (save s)) q k = search enc s q k) := by
  obtain ⟨ds, i⟩ := s
  have h : load (save ⟨ds, i⟩) = ⟨ds, i⟩ := by
    cases i with
    | none => rfl
    | some ix => cases ix; rfl
  refine ⟨h, ?_, ?_, ?_⟩
  · rw [h]
  · rw [h]
  · intro enc q k; rw [h]

/-- C6: `search` on a store whose index is absent fails with the explicit
empty-store error and never returns an `ok` result list. -/
theorem search_empty_store (enc : String → List ℚ) (s : VectorStoreSt)
    (q : String) (k : Nat) (h : s.index = none) :
    search enc s q k = .error "Vector store is empty. Add documents first." ∧
    ∀ res, search enc s q k ≠ .ok res := by
  have hs : search enc s q k =
      .error "Vector store is empty. Add documents first." := by
    unfold search
    rw [h]
  exact ⟨hs, fun res hres => by rw [hs] at hres; cases hres⟩

/-! ### Retrieval correctness lemmas -/

theorem sqL2_nonneg : ∀ u v : List ℚ, 0 ≤ sqL2 u v := by
  intro u
  induction u with
  | nil => intro v; cases v <;> simp [sqL2]
  | cons a u' ih =>
    intro v
    cases v with
    | nil => simp [sqL2]
    | cons b v' =>
      show 0 ≤ ((a - b) * (a - b) :: List.zipWith _ u' v').sum
      rw [List.sum_cons]
      exact add_nonneg (mul_self_nonneg _) (ih v')

theorem distPairs_length (q : List ℚ) :
    ∀ (vs : List (List ℚ)) (i : Int), (distPairs q vs i).length = vs.length := by
  intro vs
  induction vs with
  | nil => intro i; rfl
  | cons v rest ih => intro i; simp [distPairs, ih]

theorem mem_distPairs {q : List ℚ} {p : Int × ℚ} :
    ∀ (vs : List (List ℚ)) (i : Int),
      p ∈ distPairs q vs i → ∃ v ∈ vs, p.2 = sqL2 q v := by
  intro vs
  induction vs with
  | nil => intro i h; cases h
  | cons v rest ih =>
    intro i h
    rcases List.mem_cons.mp h with h' | h'
    · exact ⟨v, List.mem_cons_self v rest, by rw [h']⟩
    · obtain ⟨w, hw, hpw⟩ := ih (i + 1) h'
      exact ⟨w, List.mem_cons_of_mem v hw, hpw⟩

theorem filterMap_replicate_none {α β : Type _} {f : α → Option β} {a : α}
    (h : f a = none) : ∀ n, (List.replicate n a).filterMap f = [] := by
  intro n
  induction n with
  | zero => rfl
  | succ m ih => rw [List.replicate_succ, List.filterMap_cons, h, ih]

theorem pairwise_filterMap_of {α β : Type _} {f : α → Option β}
    {S : α → α → Prop} {T : β → β → Prop}
    (hST : ∀ a b, S a b → ∀ x, f a = some x → ∀ y, f b = some y → T x y) :
    ∀ l : List α, List.Pairwise S l → List.Pairwise T (l.filterMap f) := by
  intro l
  induction l with
  | nil => intro _; exact List.Pairwise.nil
  | cons a t ih =>
    intro h
    obtain ⟨h1, h2⟩ := List.pairwise_cons.mp h
    rw [List.filterMap_cons]
    cases hfa : f a with
    | none => exact ih h2
    | some x =>
      refine List.pairwise_cons.mpr ⟨?_, ih h2⟩
      intro y hy
      obtain ⟨b, hb, hfb⟩ := List.mem_filterMap.mp hy
      exact hST a b (h1 b hb) x hfa y hfb

theorem pairwise_and_of_forall {α : Type _} {P : α → Prop} {R : α → α → Prop} :
    ∀ l : List α, (∀ x ∈ l, P x) → List.Pairwise R l →
      List.Pairwise (fun a b => R a b ∧ P a ∧ P b) l := by
  intro l
  induction l with
  | nil => intro _ _; exact List.Pairwise.nil
  | cons a t ih =>
    intro hP h
    obtain ⟨h1, h2⟩ := List.pairwise_cons.mp h
    refine List.pairwise_cons.mpr ⟨?_, ih (fun x hx => hP x (List.mem_cons_of_mem a hx)) h2⟩
    intro b hb
    exact ⟨h1 b hb, hP a (List.mem_cons_self a t),
      hP b (List.mem_cons_of_mem a hb)⟩

theorem score_pos {d : ℚ} (h : 0 ≤ d) : 0 < 1 / (1 + d) :=
  div_pos one_pos (by linarith)

theorem score_le_one {d : ℚ} (h : 0 ≤ d) : 1 / (1 + d) ≤ 1 := by
  rw [div_le_one (by linarith)]
  linarith

theorem score_antitone {a b : ℚ} (ha : 0 ≤ a) (hab : a ≤ b) :
    1 / (1 + b) ≤ 1 / (1 + a) :=
  one_div_le_one_div_of_le (by linarith) (by linarith)

theorem hitToResult_pad (docs : List Doc) : hitToResult docs faissPad = none :=
  dif_neg (fun h => absurd h.1 (by decide))

theorem hitToResult_some_snd {docs : List Doc} {p : Int × ℚ} {r : Doc × ℚ}
    (h : hitToResult docs p = some r) : r.2 = 1 / (1 + p.2) := by
  unfold hitToResult at h
  split at h
  · injection h with h'
    rw [← h']
  · cases h

/-- C5: on a store with a built index of `N` vectors, `search q k` succeeds
and returns at most `min k N` results, sorted by non-increasing score, each
score being `1/(1+d)` for the L2 distance `d` of some indexed vector and
hence lying in `(0, 1]`. -/
theorem search_spec (enc : String → List ℚ) (s : VectorStoreSt) (q : String)
    (k : Nat) (idx : IndexFlatL2) (hidx : s.index = some idx) (_hk : 1 ≤ k) :
    ∃ res, search enc s q k = .ok res ∧
      res.length ≤ min k idx.vecs.length ∧
      List.Pairwise (fun a b : Doc × ℚ => b.2 ≤ a.2) res ∧
      ∀ r ∈ res, (∃ v ∈ idx.vecs, r.2 = 1 / (1 + sqL2 (enc q) v)) ∧
        0 < r.2 ∧ r.2 ≤ 1 := by
  have hsearch : search enc s q k =
      .ok ((indexSearch idx (enc q) k).filterMap (hitToResult s.documents)) := by
    unfold search
    rw [hidx]
  have hres : (indexSearch idx (enc q) k).filterMap (hitToResult s.documents) =
      ((List.insertionSort distLE (distPairs (enc q) idx.vecs 0)).take k).filterMap
        (hitToResult s.documents) := by
    show (((List.insertionSort distLE (distPairs (enc q) idx.vecs 0)).take k) ++
      List.replicate _ faissPad).filterMap (hitToResult s.documents) = _
    rw [List.filterMap_append, filterMap_replicate_none (hitToResult_pad s.documents),
      List.append_nil]
  have htopmem : ∀ p ∈ (List.insertionSort distLE (distPairs (enc q) idx.vecs 0)).take k,
      0 ≤ p.2 ∧ ∃ v ∈ idx.vecs, p.2 = sqL2 (enc q) v := by
    intro p hp
    have hp1 : p ∈ distPairs (enc q) idx.vecs 0 :=
      (List.perm_insertionSort distLE _).subset (List.take_subset k _ hp)
    obtain ⟨v, hv, hpv⟩ := mem_distPairs _ _ hp1
    exact ⟨hpv ▸ sqL2_nonneg _ _, v, hv, hpv⟩
  refine ⟨_, hsearch, ?_, ?_, ?_⟩
  · rw [hres]
    have h1 := List.length_filterMap_le (hitToResult s.documents)
      ((List.insertionSort distLE (distPairs (enc q) idx.vecs 0)).take k)
    have h2 := List.length_take k (List.insertionSort distLE (distPairs (enc q) idx.vecs 0))
    have h3 : (List.insertionSort distLE (distPairs (enc q) idx.vecs 0)).length =
        idx.vecs.length := by
      rw [List.length_insertionSort, distPairs_length]
    omega
  · rw [hres]
    have hsortedPW : List.Pairwise distLE
        (List.insertionSort distLE (distPairs (enc q) idx.vecs 0)) :=
      List.sorted_insertionSort distLE _
    have htopPW : List.Pairwise distLE
        ((List.insertionSort distLE (distPairs (enc q) idx.vecs 0)).take k) :=
      List.Pairwise.sublist (List.take_sublist k _) hsortedPW
    have hPW := pairwise_and_of_forall _ (fun p hp => (htopmem p hp).1) htopPW
    refine pairwise_filterMap_of ?_ _ hPW
    intro a b hab x hx y hy
    rw [hitToResult_some_snd hx, hitToResult_some_snd hy]
    exact score_antitone hab.2.1 hab.1
  · intro r hr
    rw [hres] at hr
    obtain ⟨p, hp, hpr⟩ := List.mem_filterMap.mp hr
    obtain ⟨hp0, v, hv, hpv⟩ := htopmem p hp
    have hr2 : r.2 = 1 / (1 + p.2) := hitToResult_some_snd hpr
    refine ⟨⟨v, hv, by rw [hr2, hpv]⟩, ?_, ?_⟩
    · rw [hr2]; exact score_pos hp0
    · rw [hr2]; exact score_le_one hp0

/-- Witness for `search_spec` at a concrete two-document store. -/
theorem search_spec_witness :
    storeW.index = some idxW ∧ 1 ≤ 5 ∧
    (∃ res, search encW storeW "q" 5 = .ok res ∧
      res.length ≤ min 5 idxW.vecs.length ∧
      List.Pairwise (fun a b : Doc × ℚ => b.2 ≤ a.2) res ∧
      ∀ r ∈ res, (∃ v ∈ idxW.vecs, r.2 = 1 / (1 + sqL2 (encW "q") v)) ∧
        0 < r.2 ∧ r.2 ≤ 1) :=
  ⟨rfl, by decide, search_spec encW storeW "q" 5 idxW rfl (by decide)⟩

/-- Witness for `search_empty_store` at a concrete empty store. -/
theorem search_empty_store_witness :
    (VectorStoreSt.mk [] none).index = none ∧
    (search (fun _ => []) ⟨[], none⟩ "q" 5 =
      .error "Vector store is empty. Add documents first." ∧
    ∀ res, search (fun _ => []) ⟨[], none⟩ "q" 5 ≠ .ok res) :=
  ⟨rfl, search_empty_store (fun _ => []) ⟨[], none⟩ "q" 5 rfl⟩

/-! ### The batch loop: per-batch characterization -/

theorem cleanBatchAux_fst :
    ∀ (l : List Doc) (i : Nat),
      (cleanBatchAux l i).1 = l.filterMap (fun d =>
        if cleanText d.content = "" then none
        else some (cleanText d.content)) := by
  intro l
  induction l with
  | nil => intro i; rfl
  | cons d rest ih =>
    intro i
    rw [List.filterMap_cons]
    by_cases ht : cleanText d.content = ""
    · have hcb : cleanBatchAux (d :: rest) i = cleanBatchAux rest (i + 1) := by
        simp only [cleanBatchAux]
        rw [if_pos ht]
      rw [hcb, ih (i + 1)]
      simp [ht]
    · have hcb : (cleanBatchAux (d :: rest) i).1 =
          cleanText d.content :: (cleanBatchAux rest (i + 1)).1 := by
        simp only [cleanBatchAux]
        rw [if_neg ht]
      rw [hcb, ih (i + 1)]
      simp [ht]

theorem embedBatch_cleanBatchAux (encode : String → Option (List ℚ)) :
    ∀ (rest : List Doc) (i : Nat) (full : List Doc), full.drop i = rest →
      embedBatch encode full (cleanBatchAux rest i).1 (cleanBatchAux rest i).2
        = succPairs encode rest := by
  intro rest
  induction rest with
  | nil => intro i full _; rfl
  | cons d rest' ih =>
    intro i full hdrop
    have hget : full[i]? = some d := by
      have h := List.getElem?_drop full i 0
      rw [hdrop] at h
      simpa using h.symm
    have hdrop' : full.drop (i + 1) = rest' := by
      have h := List.drop_drop 1 i full
      rw [hdrop] at h
      exact h.symm
    by_cases ht : cleanText d.content = ""
    · have hcb : cleanBatchAux (d :: rest') i = cleanBatchAux rest' (i + 1) := by
        simp only [cleanBatchAux]
        rw [if_pos ht]
      have h2 : succPairs encode (d :: rest') = succPairs encode rest' := by
        unfold succPairs
        rw [List.filterMap_cons]
        simp [ht]
      rw [hcb, h2]
      exact ih (i + 1) full hdrop'
    · have hcb : cleanBatchAux (d :: rest') i =
          (cleanText d.content :: (cleanBatchAux rest' (i + 1)).1,
            i :: (cleanBatchAux rest' (i + 1)).2) := by
        simp only [cleanBatchAux]
        rw [if_neg ht]
      rw [hcb]
      cases henc : encode (cleanText d.content) with
      | none =>
        have h1 : embedBatch encode full
            (cleanText d.content :: (cleanBatchAux rest' (i + 1)).1)
            (i :: (cleanBatchAux rest' (i + 1)).2) =
            embedBatch encode full (cleanBatchAux rest' (i + 1)).1
              (cleanBatchAux rest' (i + 1)).2 := by
          unfold embedBatch
          rw [List.zip_cons_cons, List.filterMap_cons]
          simp [hget, henc]
        have h2 : succPairs encode (d :: rest') = succPairs encode rest' := by
          unfold succPairs
          rw [List.filterMap_cons]
          simp [ht, henc]
        rw [h1, h2]
        exact ih (i + 1) full hdrop'
      | some v =>
        have h1 : embedBatch encode full
            (cleanText d.content :: (cleanBatchAux rest' (i + 1)).1)
            (i :: (cleanBatchAux rest' (i + 1)).2) =
            (d, v) :: embedBatch encode full (cleanBatchAux rest' (i + 1)).1
              (cleanBatchAux rest' (i + 1)).2 := by
          unfold embedBatch
          rw [List.zip_cons_cons, List.filterMap_cons]
          simp [hget, henc]
        have h2 : succPairs encode (d :: rest') =
            (d, v) :: succPairs encode rest' := by
          unfold succPairs
          rw [List.filterMap_cons]
          simp [ht, henc]
        rw [h1, h2, ih (i + 1) full hdrop']

theorem embedBatch_clean (encode : String → Option (List ℚ))
    (full : List Doc) :
    embedBatch encode full (cleanBatch full).1 (cleanBatch full).2 =
      succPairs encode full :=
  embedBatch_cleanBatchAux encode full 0 full (List.drop_zero full)

theorem succPairs_append (encode : String → Option (List ℚ))
    (x y : List Doc) :
    succPairs encode (x ++ y) = succPairs encode x ++ succPairs encode y :=
  List.filterMap_append x y _

theorem succPairs_nil_of_texts_nil {encode : String → Option (List ℚ)}
    {l : List Doc} (h : (cleanBatch l).1 = []) : succPairs encode l = [] := by
  rw [cleanBatch, cleanBatchAux_fst] at h
  have hall := List.filterMap_eq_nil_iff.mp h
  apply List.filterMap_eq_nil_iff.mpr
  intro d hd
  have := hall d hd
  by_cases ht : cleanText d.content = ""
  · simp [ht]
  · rw [if_neg ht] at this
    cases this

theorem chunk_split (docs : List Doc) (b fuel : Nat) :
    (docs.drop (8 * b)).take (8 * (fuel + 1)) =
      (docs.drop (8 * b)).take 8 ++ (docs.drop (8 * (b + 1))).take (8 * fuel) := by
  have h1 : 8 * (fuel + 1) = 8 + 8 * fuel := by ring
  rw [h1, List.take_add, List.drop_drop]
  have h2 : 8 * b + 8 = 8 * (b + 1) := by ring
  rw [h2]

theorem runBatches_succ_empty (encode : String → Option (List ℚ))
    (docs : List Doc) (b fuel : Nat) (accD : List Doc) (accE : List (List ℚ))
    (hemp : (cleanBatch ((docs.drop (8 * b)).take 8)).1.isEmpty = true) :
    runBatches encode docs b (fuel + 1) accD accE =
      ((runBatches encode docs (b + 1) fuel accD accE).1,
       (runBatches encode docs (b + 1) fuel accD accE).2.1,
       WEvent.info (b + 1) ::
         (runBatches encode docs (b + 1) fuel accD accE).2.2) := by
  simp only [runBatches]
  rw [if_pos hemp]

theorem runBatches_succ_step (encode : String → Option (List ℚ))
    (docs : List Doc) (b fuel : Nat) (accD : List Doc) (accE : List (List ℚ))
    (hemp : ¬(cleanBatch ((docs.drop (8 * b)).take 8)).1.isEmpty = true) :
    runBatches encode docs b (fuel + 1) accD accE =
      ((runBatches encode docs (b + 1) fuel
          (accD ++ (succPairs encode ((docs.drop (8 * b)).take 8)).map Prod.fst)
          (accE ++ (succPairs encode ((docs.drop (8 * b)).take 8)).map Prod.snd)).1,
       (runBatches encode docs (b + 1) fuel
          (accD ++ (succPairs encode ((docs.drop (8 * b)).take 8)).map Prod.fst)
          (accE ++ (succPairs encode ((docs.drop (8 * b)).take 8)).map Prod.snd)).2.1,
       WEvent.artifact b
         ⟨accD ++ (succPairs encode ((docs.drop (8 * b)).take 8)).map Prod.fst,
          accE ++ (succPairs encode ((docs.drop (8 * b)).take 8)).map Prod.snd⟩ ::
         WEvent.info (b + 1) ::
           (runBatches encode docs (b + 1) fuel
            (accD ++ (succPairs encode ((docs.drop (8 * b)).take 8)).map Prod.fst)
            (accE ++ (succPairs encode ((docs.drop (8 * b)).take 8)).map Prod.snd)).2.2) := by
  simp only [runBatches]
  rw [if_neg hemp, embedBatch_clean]

theorem runBatches_acc (encode : String → Option (List ℚ)) (docs : List Doc) :
    ∀ (fuel b : Nat) (accD : List Doc) (accE : List (List ℚ)),
      (runBatches encode docs b fuel accD accE).1 =
        accD ++ (succPairs encode
          ((docs.drop (8 * b)).take (8 * fuel))).map Prod.fst ∧
      (runBatches encode docs b fuel accD accE).2.1 =
        accE ++ (succPairs encode
          ((docs.drop (8 * b)).take (8 * fuel))).map Prod.snd := by
  intro fuel
  induction fuel with
  | zero =>
    intro b accD accE
    simp [runBatches, succPairs]
  | succ fuel ih =>
    intro b accD accE
    rw [chunk_split docs b fuel, succPairs_append, List.map_append,
      List.map_append]
    by_cases hemp : (cleanBatch ((docs.drop (8 * b)).take 8)).1.isEmpty = true
    · have hnil : succPairs encode ((docs.drop (8 * b)).take 8) = [] :=
        succPairs_nil_of_texts_nil (List.isEmpty_iff.mp hemp)
      rw [runBatches_succ_empty encode docs b fuel accD accE hemp, hnil]
      simpa using ih (b + 1) accD accE
    · rw [runBatches_succ_step encode docs b fuel accD accE hemp]
      obtain ⟨ih1, ih2⟩ := ih (b + 1)
        (accD ++ (succPairs encode ((docs.drop (8 * b)).take 8)).map Prod.fst)
        (accE ++ (succPairs encode ((docs.drop (8 * b)).take 8)).map Prod.snd)
      constructor
      · rw [ih1, List.append_assoc]
      · rw [ih2, List.append_assoc]

theorem succPairs_map_fst (encode : String → Option (List ℚ)) :
    ∀ l : List Doc,
      (succPairs encode l).map Prod.fst = l.filter (keeps encode) := by
  intro l
  induction l with
  | nil => rfl
  | cons d rest ih =>
    by_cases ht : cleanText d.content = ""
    · have h1 : succPairs encode (d :: rest) = succPairs encode rest := by
        unfold succPairs
        rw [List.filterMap_cons]
        simp [ht]
      have h2 : keeps encode d = false := by simp [keeps, ht]
      rw [h1, List.filter_cons, h2, ih]
      simp
    · cases henc : encode (cleanText d.content) with
      | none =>
        have h1 : succPairs encode (d :: rest) = succPairs encode rest := by
          unfold succPairs
          rw [List.filterMap_cons]
          simp [ht, henc]
        have h2 : keeps encode d = false := by simp [keeps, ht, henc]
        rw [h1, List.filter_cons, h2, ih]
        simp
      | some v =>
        have h1 : succPairs encode (d :: rest) =
            (d, v) :: succPairs encode rest := by
          unfold succPairs
          rw [List.filterMap_cons]
          simp [ht, henc]
        have h2 : keeps encode d = true := by simp [keeps, ht, henc]
        rw [h1, List.filter_cons, h2, List.map_cons, ih]
        simp

/-- A run from a fresh checkpoint directory keeps exactly the documents
whose cleaned text is non-empty and whose embedding succeeds, in order. -/
theorem addDocs_fresh_filter (encode : String → Option (List ℚ))
    (docs : List Doc) :
    (add_documents encode fsFresh docs).documents =
      docs.filter (keeps encode) := by
  have hacc := (runBatches_acc encode docs
    ((docs.length + 8 - 1) / 8 - 0) 0 [] []).1
  have htake : (docs.drop (8 * 0)).take
      (8 * ((docs.length + 8 - 1) / 8 - 0)) = docs := by
    rw [Nat.mul_zero, List.drop_zero, Nat.sub_zero]
    apply List.take_of_length_le
    omega
  show (runBatches encode docs 0
    ((docs.length + 8 - 1) / 8 - 0) [] []).1 = docs.filter (keeps encode)
  rw [hacc, htake, List.nil_append, succPairs_map_fst]

/-- C7: per-item embedding failures are isolated: `add_documents` always
runs to completion, the failing items (and the items whose cleaned text is
empty) are excluded, and exactly the sibling items whose embedding succeeds
are kept. -/
theorem add_documents_isolates_failures (encode : String → Option (List ℚ))
    (docs : List Doc) :
    (add_documents encode fsFresh docs).documents =
      docs.filter (keeps encode) ∧
    ∀ d, d ∈ (add_documents encode fsFresh docs).documents ↔
      (d ∈ docs ∧ keeps encode d = true) := by
  refine ⟨addDocs_fresh_filter encode docs, fun d => ?_⟩
  rw [addDocs_fresh_filter encode docs, List.mem_filter]

/-- C10: the final document sequence of a run started with empty
accumulators is a subsequence of the input list, in the input's original
relative order. -/
theorem add_documents_preserves_order (encode : String → Option (List ℚ))
    (docs : List Doc) :
    List.Sublist (add_documents encode fsFresh docs).documents docs := by
  rw [addDocs_fresh_filter encode docs]
  exact List.filter_sublist docs

/-! ### The checkpoint write trace -/

theorem runBatches_artifact_bound (encode : String → Option (List ℚ))
    (docs : List Doc) :
    ∀ (fuel b : Nat) (accD : List Doc) (accE : List (List ℚ)) (j : Nat)
      (d : CkptData),
      WEvent.artifact j d ∈ (runBatches encode docs b fuel accD accE).2.2 →
      b ≤ j ∧ j < b + fuel := by
  intro fuel
  induction fuel with
  | zero => intro b accD accE j d h; cases h
  | succ fuel ih =>
    intro b accD accE j d h
    by_cases hemp : (cleanBatch ((docs.drop (8 * b)).take 8)).1.isEmpty = true
    · rw [runBatches_succ_empty encode docs b fuel accD accE hemp] at h
      rcases List.mem_cons.mp h with h' | h'
      · cases h'
      · have := ih (b + 1) accD accE j d h'
        omega
    · rw [runBatches_succ_step encode docs b fuel accD accE hemp] at h
      rcases List.mem_cons.mp h with h' | h'
      · injection h' with h1 _
        omega
      · rcases List.mem_cons.mp h' with h'' | h''
        · cases h''
        · have := ih (b + 1) _ _ j d h''
          omega

theorem runBatches_trace_spec (encode : String → Option (List ℚ))
    (docs : List Doc) :
    ∀ (fuel b : Nat) (accD : List Doc) (accE : List (List ℚ)) (i : Nat),
      b ≤ i → i < b + fuel →
      (WEvent.info (i + 1) ∈ (runBatches encode docs b fuel accD accE).2.2) ∧
      ((cleanBatch ((docs.drop (8 * i)).take 8)).1 ≠ [] →
        ∃ data, WEvent.artifact i data ∈
          (runBatches encode docs b fuel accD accE).2.2) ∧
      ((cleanBatch ((docs.drop (8 * i)).take 8)).1 = [] →
        ∀ data, WEvent.artifact i data ∉
          (runBatches encode docs b fuel accD accE).2.2) := by
  intro fuel
  induction fuel with
  | zero => intro b accD accE i h1 h2; omega
  | succ fuel ih =>
    intro b accD accE i h1 h2
    by_cases hib : i = b
    · subst hib
      by_cases hemp : (cleanBatch ((docs.drop (8 * i)).take 8)).1.isEmpty = true
      · rw [runBatches_succ_empty encode docs i fuel accD accE hemp]
        refine ⟨List.mem_cons_self _ _, ?_, ?_⟩
        · intro hne
          exact absurd (List.isEmpty_iff.mp hemp) hne
        · intro _ data hmem
          rcases List.mem_cons.mp hmem with h' | h'
          · cases h'
          · have := runBatches_artifact_bound encode docs fuel (i + 1)
              accD accE i data h'
            omega
      · rw [runBatches_succ_step encode docs i fuel accD accE hemp]
        refine ⟨List.mem_cons_of_mem _ (List.mem_cons_self _ _), ?_, ?_⟩
        · intro _
          exact ⟨_, List.mem_cons_self _ _⟩
        · intro hnil
          rw [hnil] at hemp
          exact absurd rfl hemp
    · have hbi : b + 1 ≤ i := by omega
      have hlt : i < (b + 1) + fuel := by omega
      by_cases hemp : (cleanBatch ((docs.drop (8 * b)).take 8)).1.isEmpty = true
      · rw [runBatches_succ_empty encode docs b fuel accD accE hemp]
        obtain ⟨ha, hb', hc⟩ := ih (b + 1) accD accE i hbi hlt
        refine ⟨List.mem_cons_of_mem _ ha, ?_, ?_⟩
        · intro hne
          obtain ⟨data, hd⟩ := hb' hne
          exact ⟨data, List.mem_cons_of_mem _ hd⟩
        · intro hnil data hmem
          rcases List.mem_cons.mp hmem with h' | h'
          · cases h'
          · exact hc hnil data h'
      · rw [runBatches_succ_step encode docs b fuel accD accE hemp]
        obtain ⟨ha, hb', hc⟩ := ih (b + 1) _ _ i hbi hlt
        refine ⟨List.mem_cons_of_mem _ (List.mem_cons_of_mem _ ha), ?_, ?_⟩
        · intro hne
          obtain ⟨data, hd⟩ := hb' hne
          exact ⟨data, List.mem_cons_of_mem _ (List.mem_cons_of_mem _ hd)⟩
        · intro hnil data hmem
          rcases List.mem_cons.mp hmem with h' | h'
          · injection h' with h1' _
            exact absurd h1' hib
          · rcases List.mem_cons.mp h' with h'' | h''
            · cases h''
            · exact hc hnil data h''

/-- C1 (amended): for every processed batch index, an updated
checkpoint-info record with `next_batch = batch_index + 1` is written; a
checkpoint artifact tagged with the batch index is written exactly when the
batch has at least one usable (non-empty cleaned) text.  A batch whose
cleaned texts are all empty advances the pointer but writes no artifact. -/
theorem checkpoint_writes_per_batch (encode : String → Option (List ℚ))
    (fs : FS) (docs : List Doc) (i : Nat)
    (h1 : (loadStart fs).1 ≤ i)
    (h2 : i < (docs.length + 8 - 1) / 8) :
    (WEvent.info (i + 1) ∈ (add_documents encode fs docs).trace) ∧
    ((cleanBatch ((docs.drop (8 * i)).take 8)).1 ≠ [] →
      ∃ data, WEvent.artifact i data ∈ (add_documents encode fs docs).trace) ∧
    ((cleanBatch ((docs.drop (8 * i)).take 8)).1 = [] →
      ∀ data,
        WEvent.artifact i data ∉ (add_documents encode fs docs).trace) := by
  have hblt : i < (loadStart fs).1 +
      ((docs.length + 8 - 1) / 8 - (loadStart fs).1) := by omega
  exact runBatches_trace_spec encode docs
    ((docs.length + 8 - 1) / 8 - (loadStart fs).1) (loadStart fs).1
    (loadStart fs).2.1 (loadStart fs).2.2 i h1 hblt

/-- Witness for `checkpoint_writes_per_batch`: one document with usable
text, batch 0. -/
theorem checkpoint_writes_per_batch_witness :
    ((loadStart fsFresh).1 ≤ 0) ∧ (0 < ([docB].length + 8 - 1) / 8) ∧
    ((WEvent.info 1 ∈ (add_documents encOkW fsFresh [docB]).trace) ∧
    ((cleanBatch (([docB].drop (8 * 0)).take 8)).1 ≠ [] →
      ∃ data, WEvent.artifact 0 data ∈
        (add_documents encOkW fsFresh [docB]).trace) ∧
    ((cleanBatch (([docB].drop (8 * 0)).take 8)).1 = [] →
      ∀ data, WEvent.artifact 0 data ∉
        (add_documents encOkW fsFresh [docB]).trace)) :=
  ⟨by decide, by decide,
    checkpoint_writes_per_batch encOkW fsFresh [docB] 0 (by decide) (by decide)⟩

/-- C1 counterexample: a single batch whose only document cleans to the
empty string.  The loop writes the checkpoint-info record (`next_batch = 1`)
but no checkpoint artifact for batch 0, so the claim that both are written
for every processed batch fails. -/
theorem empty_batch_writes_no_artifact :
    (add_documents encOkW fsFresh [docEmpty]).trace = [WEvent.info 1] ∧
    ¬∃ data, WEvent.artifact 0 data ∈
      (add_documents encOkW fsFresh [docEmpty]).trace := by
  have htr : (add_documents encOkW fsFresh [docEmpty]).trace =
      [WEvent.info 1] := by decide
  refine ⟨htr, ?_⟩
  rintro ⟨d, hd⟩
  rw [htr, List.mem_singleton] at hd
  cases hd

/-! ### The pairing invariant -/

theorem getElem_idx_congr {α : Type _} (l : List α) {i k : Nat}
    (hik : i = k) (hi : i < l.length) (hk : k < l.length) : l.get ⟨i, hi⟩ = l.get ⟨k, hk⟩ := by
  subst hik
  rfl

theorem paired_nil (encode : String → Option (List ℚ)) :
    Paired encode [] [] :=
  ⟨rfl, fun _ hj _ => by simp at hj⟩

theorem paired_append {encode : String → Option (List ℚ)}
    {d1 d2 : List Doc} {e1 e2 : List (List ℚ)}
    (h1 : Paired encode d1 e1) (h2 : Paired encode d2 e2) :
    Paired encode (d1 ++ d2) (e1 ++ e2) := by
  obtain ⟨hl1, hp1⟩ := h1
  obtain ⟨hl2, hp2⟩ := h2
  constructor
  · rw [List.length_append, List.length_append, hl1, hl2]
  · intro j hj hj'
    have hjl : j < d1.length + d2.length := by
      have h := hj
      rwa [List.length_append] at h
    have hjl' : j < e1.length + e2.length := by
      have h := hj'
      rwa [List.length_append] at h
    by_cases hlt : j < d1.length
    · have hlt' : j < e1.length := by omega
      rw [List.get_eq_getElem, List.get_eq_getElem,
        List.getElem_append_left hlt, List.getElem_append_left hlt']
      have hres := hp1 j hlt hlt'
      rw [List.get_eq_getElem, List.get_eq_getElem] at hres
      exact hres
    · have hge : d1.length ≤ j := by omega
      have hge' : e1.length ≤ j := by omega
      have hj2 : j - d1.length < d2.length := by omega
      have hj2' : j - d1.length < e2.length := by omega
      have hj2'' : j - e1.length < e2.length := by omega
      have hL : (d1 ++ d2).get ⟨j, hj⟩ = d2.get ⟨j - d1.length, hj2⟩ := by
        rw [List.get_eq_getElem, List.get_eq_getElem]
        exact List.getElem_append_right hge
      have hR : (e1 ++ e2).get ⟨j, hj'⟩ = e2.get ⟨j - d1.length, hj2'⟩ := by
        rw [List.get_eq_getElem]
        rw [show (e1 ++ e2)[j] = e2[j - e1.length]
          from List.getElem_append_right hge']
        rw [← List.get_eq_getElem e2 ⟨j - e1.length, hj2''⟩]
        exact getElem_idx_congr e2 (by omega) hj2'' hj2'
      rw [hL, hR]
      exact hp2 (j - d1.length) hj2 hj2'

theorem paired_succPairs (encode : String → Option (List ℚ))
    (l : List Doc) :
    Paired encode ((succPairs encode l).map Prod.fst)
      ((succPairs encode l).map Prod.snd) := by
  constructor
  · rw [List.length_map, List.length_map]
  · intro j hj hj'
    rw [List.length_map] at hj
    rw [List.get_eq_getElem, List.get_eq_getElem]
    have hj'' : j < (succPairs encode l).length := hj
    rw [List.getElem_map, List.getElem_map]
    have hmem : (succPairs encode l)[j] ∈ succPairs encode l :=
      List.getElem_mem hj''
    simp only [succPairs] at hmem ⊢
    obtain ⟨d, _, hd⟩ := List.mem_filterMap.mp hmem
    by_cases ht : cleanText d.content = ""
    · simp [ht] at hd
    · simp only [ht, ite_false, if_neg, not_false_iff] at hd
      rw [Option.map_eq_some'] at hd
      obtain ⟨v, hv, hpair⟩ := hd
      rw [← hpair]
      exact hv

theorem runBatches_paired (encode : String → Option (List ℚ))
    (docs : List Doc) :
    ∀ (fuel b : Nat) (accD : List Doc) (accE : List (List ℚ)),
      Paired encode accD accE →
      ∀ i data,
        WEvent.artifact i data ∈
          (runBatches encode docs b fuel accD accE).2.2 →
        Paired encode data.documents data.embeddings := by
  intro fuel
  induction fuel with
  | zero => intro b accD accE _ i data h; cases h
  | succ fuel ih =>
    intro b accD accE hP i data h
    by_cases hemp : (cleanBatch ((docs.drop (8 * b)).take 8)).1.isEmpty = true
    · rw [runBatches_succ_empty encode docs b fuel accD accE hemp] at h
      rcases List.mem_cons.mp h with h' | h'
      · cases h'
      · exact ih (b + 1) accD accE hP i data h'
    · rw [runBatches_succ_step encode docs b fuel accD accE hemp] at h
      have hP' : Paired encode
          (accD ++ (succPairs encode ((docs.drop (8 * b)).take 8)).map Prod.fst)
          (accE ++ (succPairs encode
            ((docs.drop (8 * b)).take 8)).map Prod.snd) :=
        paired_append hP (paired_succPairs encode _)
      rcases List.mem_cons.mp h with h' | h'
      · injection h' with _ h2
        rw [h2]
        exact hP'
      · rcases List.mem_cons.mp h' with h'' | h''
        · cases h''
        · exact ih (b + 1) _ _ hP' i data h''

/-- C2: at every checkpoint-artifact write of `add_documents` (starting
from an initial accumulator that satisfies the pairing invariant, e.g. a
fresh run or a checkpoint this code wrote), the dumped state has as many
embeddings as documents, and the `i`-th embedding is the backend's output
on the `i`-th document's cleaned content. -/
theorem checkpoint_pairing (encode : String → Option (List ℚ)) (fs : FS)
    (docs : List Doc)
    (h : Paired encode (loadStart fs).2.1 (loadStart fs).2.2) :
    ∀ i data, WEvent.artifact i data ∈ (add_documents encode fs docs).trace →
      Paired encode data.documents data.embeddings := by
  intro i data hmem
  exact runBatches_paired encode docs
    ((docs.length + 8 - 1) / 8 - (loadStart fs).1) (loadStart fs).1
    (loadStart fs).2.1 (loadStart fs).2.2 h i data hmem

/-- Witness for `checkpoint_pairing`: a fresh run over one document whose
embedding succeeds; the batch-0 artifact holds the paired state. -/
theorem checkpoint_pairing_witness :
    Paired encOkW (loadStart fsFresh).2.1 (loadStart fsFresh).2.2 ∧
    Paired encOkW [docB] [[1]] := by
  have hp : Paired encOkW (loadStart fsFresh).2.1 (loadStart fsFresh).2.2 :=
    paired_nil encOkW
  refine ⟨hp, ?_⟩
  exact checkpoint_pairing encOkW fsFresh [docB] hp 0 ⟨[docB], [[1]]⟩ (by decide)

/-! ### Checkpoint recovery fallback -/

/-- C3: a corrupt checkpoint-info record, or an info record naming a resume
batch whose checkpoint artifact is missing or unreadable, is treated as "no
checkpoint": `add_documents` raises no error and behaves exactly like a run
with a fresh checkpoint directory, starting from batch 0 with empty
accumulators. -/
theorem corrupt_checkpoint_restarts (encode : String → Option (List ℚ))
    (docs : List Doc) (fs : FS)
    (h : fs.info = .corrupt ∨ ∃ n, fs.info = .ok n ∧
      (fs.arts ((n : Int) - 1) = .absent ∨
        fs.arts ((n : Int) - 1) = .corrupt)) :
    loadStart fs = (0, [], []) ∧
    add_documents encode fs docs = add_documents encode fsFresh docs := by
  have hls : loadStart fs = (0, [], []) := by
    rcases h with h | ⟨n, hn, h⟩
    · unfold loadStart
      rw [h]
    · unfold loadStart
      rw [hn]
      dsimp only
      rcases h with h | h <;> rw [h]
  refine ⟨hls, ?_⟩
  unfold add_documents
  rw [hls]
  rfl

/-- Witness for `corrupt_checkpoint_restarts`: the spec scenario
`next_batch = 2` with a missing artifact for batch 1. -/
theorem corrupt_checkpoint_restarts_witness :
    (fsMissingArt.info = .ok 2 ∧ fsMissingArt.arts ((2 : Int) - 1) = .absent) ∧
    loadStart fsMissingArt = (0, [], []) ∧
    add_documents encOkW fsMissingArt [docB] =
      add_documents encOkW fsFresh [docB] :=
  ⟨⟨rfl, rfl⟩, corrupt_checkpoint_restarts encOkW [docB] fsMissingArt
    (Or.inr ⟨2, rfl, Or.inl rfl⟩)⟩

end RagVS
